import Mathlib

/-!
Verification of the adaptive token-reduction engine of an EViT-style vision
transformer (source: src/models/evit.py).  Tensors are modelled per batch row:
a token is its feature vector (a list of rationals), a sequence is a list of
tokens, attention scores are lists of rationals.  Fallible tensor operations
(asserts, out-of-range indexing, torch.cat on an empty list, the unbound local
variable on one control path) are modelled with Except.
-/

namespace EViT

/-- Feature vector of one token (a row of the [B, N, C] sequence tensor). -/
abbrev Token := List ℚ

/-- Shallow embedding of the function complement_idx (evit.py lines 60-81) on one
batch row.  The source scatters the value 0 into the array [0..dim-1] at every
position listed in idx (for in-range idx this is exactly the membership map
below), sorts ascending (torch.sort, stability irrelevant since only values are
kept), and drops the first idx.length entries. -/
def complement_idx (idx : List ℕ) (dim : ℕ) : List ℕ :=
  (List.insertionSort (· ≤ ·)
      ((List.range dim).map (fun p => if p ∈ idx then 0 else p))).drop idx.length

/-- Count of positions of [0..d-1] that are zeroed by the scatter. -/
def zeroedCount (idx : List ℕ) (d : ℕ) : ℕ :=
  ((List.range d).filter (fun p => decide (p ∈ idx))).length

lemma masked_perm (idx : List ℕ) (d : ℕ) :
    ((List.range d).map (fun p => if p ∈ idx then 0 else p)).Perm
      (List.replicate (zeroedCount idx d) 0
        ++ (List.range d).filter (fun p => decide (p ∉ idx))) := by
  induction d with
  | zero => simp [zeroedCount]
  | succ n ih =>
    have hrange : List.range (n + 1) = List.range n ++ [n] := List.range_succ n
    by_cases h : n ∈ idx
    · have hmap : (List.range (n + 1)).map (fun p => if p ∈ idx then 0 else p)
          = (List.range n).map (fun p => if p ∈ idx then 0 else p) ++ [0] := by
        rw [hrange, List.map_append]; simp [h]
      have hz : zeroedCount idx (n + 1) = zeroedCount idx n + 1 := by
        unfold zeroedCount; rw [hrange, List.filter_append]; simp [h]
      have hf : (List.range (n + 1)).filter (fun p => decide (p ∉ idx))
          = (List.range n).filter (fun p => decide (p ∉ idx)) := by
        rw [hrange, List.filter_append]; simp [h]
      rw [hmap, hz, hf]
      refine (List.perm_append_singleton 0 _).trans ?_
      refine (ih.cons 0).trans ?_
      rw [List.replicate_succ, List.cons_append]
    · have hmap : (List.range (n + 1)).map (fun p => if p ∈ idx then 0 else p)
          = (List.range n).map (fun p => if p ∈ idx then 0 else p) ++ [n] := by
        rw [hrange, List.map_append]; simp [h]
      have hz : zeroedCount idx (n + 1) = zeroedCount idx n := by
        unfold zeroedCount; rw [hrange, List.filter_append]; simp [h]
      have hf : (List.range (n + 1)).filter (fun p => decide (p ∉ idx))
          = (List.range n).filter (fun p => decide (p ∉ idx)) ++ [n] := by
        rw [hrange, List.filter_append]; simp [h]
      rw [hmap, hz, hf, ← List.append_assoc]
      exact ih.append_right [n]

lemma masked_sorted_eq (idx : List ℕ) (d : ℕ) :
    List.insertionSort (· ≤ ·)
        ((List.range d).map (fun p => if p ∈ idx then 0 else p))
      = List.replicate (zeroedCount idx d) 0
        ++ (List.range d).filter (fun p => decide (p ∉ idx)) := by
  have hs1 : List.Sorted (· ≤ ·) (List.insertionSort (· ≤ ·)
      ((List.range d).map (fun p => if p ∈ idx then 0 else p))) :=
    List.sorted_insertionSort _ _
  have hs2 : List.Sorted (· ≤ ·) (List.replicate (zeroedCount idx d) 0
      ++ (List.range d).filter (fun p => decide (p ∉ idx))) := by
    rw [List.Sorted, List.pairwise_append]
    refine ⟨?_, ?_, ?_⟩
    · exact List.pairwise_replicate.2 (Or.inr (le_refl 0))
    · exact ((List.sorted_lt_range d).filter _).le_of_lt
    · intro a ha b _
      rw [List.eq_of_mem_replicate ha]
      exact Nat.zero_le b
  exact List.eq_of_perm_of_sorted
    ((List.perm_insertionSort _ _).trans (masked_perm idx d)) hs1 hs2

lemma zeroedCount_eq_length (idx : List ℕ) (d : ℕ) (hnd : idx.Nodup)
    (hlt : ∀ i ∈ idx, i < d) : zeroedCount idx d = idx.length := by
  unfold zeroedCount
  have hperm : ((List.range d).filter (fun p => decide (p ∈ idx))).Perm idx := by
    rw [List.perm_ext_iff_of_nodup (List.Nodup.filter _ (List.nodup_range d)) hnd]
    intro a
    simp only [List.mem_filter, List.mem_range, decide_eq_true_eq]
    exact ⟨fun h => h.2, fun h => ⟨hlt a h, h⟩⟩
  exact hperm.length_eq

/-- Characterization of complement_idx: on a nodup, in-range index list it
returns exactly the ascending complement of idx inside [0..dim-1]. -/
lemma complement_idx_eq (idx : List ℕ) (dim : ℕ) (hnd : idx.Nodup)
    (hlt : ∀ i ∈ idx, i < dim) :
    complement_idx idx dim = (List.range dim).filter (fun p => decide (p ∉ idx)) := by
  unfold complement_idx
  rw [masked_sorted_eq]
  exact List.drop_left' (by rw [List.length_replicate, zeroedCount_eq_length idx dim hnd hlt])

/-- Tie-breaking descending order on token indices used to model
torch.topk(cls_attn, k, largest=True, sorted=True): strictly higher score
first, equal scores keep ascending index order (stable, largest-sorted
semantics of the deterministic top-k primitive). -/
def scoreOrder (s : List ℚ) (i j : ℕ) : Prop :=
  s.getD j 0 < s.getD i 0 ∨ (s.getD i 0 = s.getD j 0 ∧ i ≤ j)

instance (s : List ℚ) : DecidableRel (scoreOrder s) := fun i j => by
  unfold scoreOrder; exact inferInstance

instance (s : List ℚ) : IsTotal ℕ (scoreOrder s) where
  total i j := by
    unfold scoreOrder
    rcases lt_trichotomy (s.getD i 0) (s.getD j 0) with h | h | h
    · exact Or.inr (Or.inl h)
    · rcases Nat.le_total i j with hij | hij
      · exact Or.inl (Or.inr ⟨h, hij⟩)
      · exact Or.inr (Or.inr ⟨h.symm, hij⟩)
    · exact Or.inl (Or.inl h)

instance (s : List ℚ) : IsTrans ℕ (scoreOrder s) where
  trans i j k hij hjk := by
    unfold scoreOrder at hij hjk ⊢
    rcases hij with h1 | h1
    · rcases hjk with h2 | h2
      · exact Or.inl (h2.trans h1)
      · exact Or.inl (by rw [← h2.1]; exact h1)
    · rcases hjk with h2 | h2
      · exact Or.inl (by rw [h1.1]; exact h2)
      · exact Or.inr ⟨h1.1.trans h2.1, h1.2.trans h2.2⟩

instance (s : List ℚ) : IsAntisymm ℕ (scoreOrder s) where
  antisymm i j hij hji := by
    unfold scoreOrder at hij hji
    rcases hij with h1 | h1
    · rcases hji with h2 | h2
      · exact absurd h2 (lt_asymm h1)
      · exact absurd h1 (by rw [h2.1]; exact lt_irrefl _)
    · rcases hji with h2 | h2
      · exact absurd h2 (by rw [h1.1]; exact lt_irrefl _)
      · exact Nat.le_antisymm h1.2 h2.2

/-- Model of torch.topk(cls_attn, left_tokens, dim=1, largest=True, sorted=True)
(evit.py line 211) on one batch row: the indices of the k largest entries of s,
in descending score order, ties kept in ascending index order. -/
def topkIdx (s : List ℚ) (k : ℕ) : List ℕ :=
  (List.insertionSort (scoreOrder s) (List.range s.length)).take k

/-- Values returned by Block.forward (evit.py lines 230-234): the output
sequence, n_tokens = x.shape[1] - 1, and the optional idx (kept indices padded
with -1) and compl (discarded indices) tensors. -/
structure BlockOut where
  x : List Token
  nTokens : ℕ
  idx : Option (List ℤ)
  compl : Option (List ℕ)
deriving DecidableEq

instance {e a : Type _} [DecidableEq e] [DecidableEq a] : DecidableEq (Except e a) :=
  fun u v =>
  match u, v with
  | .ok u, .ok v =>
    if h : u = v then .isTrue (by rw [h]) else .isFalse (by simp [h])
  | .error u, .error v =>
    if h : u = v then .isTrue (by rw [h]) else .isFalse (by simp [h])
  | .ok _, .error _ => .isFalse (by simp)
  | .error _, .ok _ => .isFalse (by simp)

/-- left_tokens = math.ceil(keep_rate * (N - 1)) at evit.py line 206. -/
def leftTokens (k : ℚ) (N : ℕ) : ℤ := ⌈k * ((N : ℚ) - 1)⌉

/-- Fused extra token of evit.py lines 218-222: gather the discarded tokens
(x[:, 1:] at the complement indices) and their scores (cls_attn at the same
indices), multiply elementwise and sum over the discarded dimension, channel by
channel.  No renormalization of the weights. -/
def fusedToken (x : List Token) (s : List ℚ) (cIdx : List ℕ) : Token :=
  let nonCls := x.drop 1
  let nonTopk := cIdx.map (fun i => nonCls.getD i [])
  let nonTopkAttn := cIdx.map (fun i => s.getD i 0)
  (List.range (x.headD []).length).map
    (fun c => ((nonTopk.zip nonTopkAttn).map (fun p => p.1.getD c 0 * p.2)).sum)

/-- Rebuilt sequence of evit.py line 223:
torch.cat([x[:, 0:1], x_others, extra_token], dim=1). -/
def reducedSeq (x : List Token) (s : List ℚ) (kept cIdx : List ℕ) : List Token :=
  x.take 1 ++ kept.map (fun i => (x.drop 1).getD i []) ++ [fusedToken x s cIdx]

/-- Shallow embedding of the token-reduction step of Block.forward (evit.py
lines 205-234) on one batch row.  Input x is the sequence after the attention
residual, s the class-token attention scores cls_attn (attn[:, :, 0, 1:] meaned
over heads, lines 209-210).  The MLP sublayer does not change shapes and is
outside the reduction; outputs are the returned sequence, n_tokens, idx and
compl.  Error values model, in source order: the read of the unassigned local
variable index at line 232 when keep_rate < 1 but left_tokens == N-1; the
assert left_tokens >= 1 at line 208; and the torch.topk failure when
left_tokens exceeds the score length. -/
def evitReduce (keepRate : ℚ) (x : List Token) (s : List ℚ) : Except String BlockOut :=
  if keepRate < 1 then
    if leftTokens keepRate x.length = (x.length : ℤ) - 1 then
      .error "UnboundLocalError: index"
    else if leftTokens keepRate x.length < 1 then
      .error "AssertionError: left_tokens"
    else if (s.length : ℤ) < leftTokens keepRate x.length then
      .error "RuntimeError: topk"
    else
      let kept := topkIdx s (leftTokens keepRate x.length).toNat
      let cIdx := complement_idx kept (x.length - 1)
      let newx := reducedSeq x s kept cIdx
      .ok ⟨newx, newx.length - 1, some (kept.map Int.ofNat ++ [-1]), some cIdx⟩
  else
    .ok ⟨x, x.length - 1, none, none⟩

/-- Scorer of evit.py lines 209-210: mean over heads of the class-token
attention row restricted to non-class columns, attn[:, :, 0, 1:].mean(dim=1),
for one batch row of an attention tensor given as heads x N x N. -/
def clsAttnScores (attnHeads : List (List (List ℚ))) : List ℚ :=
  let rows := attnHeads.map (fun A => (A.headD []).drop 1)
  let N1 := (rows.headD []).length
  (List.range N1).map (fun j => (rows.map (fun r => r.getD j 0)).sum / attnHeads.length)

lemma leftTokens_bounds (k : ℚ) (N : ℕ) (hk0 : 0 < k) (hk1 : k ≤ 1) (hN : 2 ≤ N) :
    1 ≤ leftTokens k N ∧ leftTokens k N ≤ (N : ℤ) - 1 := by
  have hN1 : (0 : ℚ) < (N : ℚ) - 1 := by
    have h2 : (2 : ℚ) ≤ (N : ℚ) := by exact_mod_cast hN
    linarith
  constructor
  · exact Int.ceil_pos.2 (mul_pos hk0 hN1)
  · rw [leftTokens, Int.ceil_le]
    push_cast
    nlinarith

lemma topkIdx_mem_lt (s : List ℚ) (k : ℕ) : ∀ i ∈ topkIdx s k, i < s.length := by
  intro i hi
  have h2 : i ∈ List.insertionSort (scoreOrder s) (List.range s.length) :=
    List.mem_of_mem_take hi
  have h3 := (List.perm_insertionSort (scoreOrder s) (List.range s.length)).mem_iff.1 h2
  exact List.mem_range.1 h3

lemma topkIdx_nodup (s : List ℚ) (k : ℕ) : (topkIdx s k).Nodup := by
  have h1 : (List.insertionSort (scoreOrder s) (List.range s.length)).Nodup :=
    (List.perm_insertionSort (scoreOrder s) (List.range s.length)).symm.nodup
      (List.nodup_range _)
  exact h1.sublist (List.take_sublist _ _)

lemma topkIdx_length (s : List ℚ) (k : ℕ) (h : k ≤ s.length) : (topkIdx s k).length = k := by
  unfold topkIdx
  rw [List.length_take, (List.perm_insertionSort _ _).length_eq, List.length_range]
  exact Nat.min_eq_left h

lemma topkIdx_sorted (s : List ℚ) (k : ℕ) :
    List.Pairwise (scoreOrder s) (topkIdx s k) :=
  List.Pairwise.sublist (List.take_sublist _ _) (List.sorted_insertionSort _ _)

lemma topkIdx_strict (s : List ℚ) (k : ℕ) :
    List.Pairwise (fun i j => s.getD j 0 < s.getD i 0
      ∨ (s.getD i 0 = s.getD j 0 ∧ i < j)) (topkIdx s k) := by
  have hnd : List.Pairwise (fun i j : ℕ => i ≠ j) (topkIdx s k) := topkIdx_nodup s k
  refine ((topkIdx_sorted s k).and hnd).imp ?_
  rintro i j ⟨hso | ⟨heq, hle⟩, hne⟩
  · exact Or.inl hso
  · exact Or.inr ⟨heq, lt_of_le_of_ne hle hne⟩

lemma topkIdx_top (s : List ℚ) (k : ℕ) :
    ∀ i ∈ topkIdx s k, ∀ j, j < s.length → j ∉ topkIdx s k →
      s.getD j 0 < s.getD i 0 ∨ (s.getD i 0 = s.getD j 0 ∧ i < j) := by
  intro i hi j hj hj2
  have hsplit := List.take_append_drop k (List.insertionSort (scoreOrder s) (List.range s.length))
  have hsorted : List.Pairwise (scoreOrder s)
      (topkIdx s k ++ (List.insertionSort (scoreOrder s) (List.range s.length)).drop k) := by
    unfold topkIdx
    rw [hsplit]
    exact List.sorted_insertionSort _ _
  have hjfull : j ∈ List.insertionSort (scoreOrder s) (List.range s.length) :=
    (List.perm_insertionSort (scoreOrder s) (List.range s.length)).mem_iff.2
      (List.mem_range.2 hj)
  have hjdrop : j ∈ (List.insertionSort (scoreOrder s) (List.range s.length)).drop k := by
    rcases List.mem_append.1 (by unfold topkIdx; rw [hsplit]; exact hjfull :
        j ∈ topkIdx s k ++ (List.insertionSort (scoreOrder s) (List.range s.length)).drop k)
      with h | h
    · exact absurd h hj2
    · exact h
  have hso : scoreOrder s i j := (List.pairwise_append.1 hsorted).2.2 i hi j hjdrop
  have hne : i ≠ j := fun he => hj2 (he ▸ hi)
  rcases hso with h | ⟨heq, hle⟩
  · exact Or.inl h
  · exact Or.inr ⟨heq, lt_of_le_of_ne hle hne⟩

/-- Normal form of the reducing branch of evitReduce: when keep_rate < 1,
left_tokens differs from N-1, left_tokens >= 1 and left_tokens fits in the
score vector, the step succeeds and returns the reassembled sequence together
with the kept indices (padded with -1) and the complement indices. -/
lemma evitReduce_run (k : ℚ) (x : List Token) (s : List ℚ)
    (hk : k < 1)
    (hne : leftTokens k x.length ≠ (x.length : ℤ) - 1)
    (h1 : 1 ≤ leftTokens k x.length)
    (hlen : leftTokens k x.length ≤ (s.length : ℤ)) :
    evitReduce k x s =
      .ok ⟨reducedSeq x s (topkIdx s (leftTokens k x.length).toNat)
              (complement_idx (topkIdx s (leftTokens k x.length).toNat) (x.length - 1)),
           (reducedSeq x s (topkIdx s (leftTokens k x.length).toNat)
              (complement_idx (topkIdx s (leftTokens k x.length).toNat) (x.length - 1))).length - 1,
           some ((topkIdx s (leftTokens k x.length).toNat).map Int.ofNat ++ [-1]),
           some (complement_idx (topkIdx s (leftTokens k x.length).toNat) (x.length - 1))⟩ := by
  unfold evitReduce
  rw [if_pos hk, if_neg hne, if_neg (not_lt.2 h1), if_neg (not_lt.2 hlen)]

/-- C2: for every dim >= 1 and every nodup index list with entries in
[0..dim-1] -- including inputs where index value 0 is among the kept indices --
complement_idx returns exactly the ascending complement of the kept set; hence
kept and discarded are disjoint, their union is [0..dim-1], and the sizes add
up to dim. -/
theorem complement_idx_spec (idx : List ℕ) (dim : ℕ) (_hdim : 1 ≤ dim)
    (hnd : idx.Nodup) (hlt : ∀ i ∈ idx, i < dim) :
    complement_idx idx dim = (List.range dim).filter (fun p => decide (p ∉ idx)) ∧
    List.Sorted (· < ·) (complement_idx idx dim) ∧
    (∀ p, p ∈ complement_idx idx dim ↔ p < dim ∧ p ∉ idx) ∧
    (∀ p, ¬(p ∈ idx ∧ p ∈ complement_idx idx dim)) ∧
    idx.length + (complement_idx idx dim).length = dim := by
  have he := complement_idx_eq idx dim hnd hlt
  refine ⟨he, ?_, ?_, ?_, ?_⟩
  · rw [he]; exact (List.sorted_lt_range dim).filter _
  · intro p
    rw [he]
    simp [List.mem_filter, List.mem_range]
  · rintro p ⟨h1, h2⟩
    rw [he] at h2
    have h3 := (List.mem_filter.1 h2).2
    simp only [decide_eq_true_eq] at h3
    exact h3 h1
  · have hlen := (masked_perm idx dim).length_eq
    simp only [List.length_map, List.length_range, List.length_append,
      List.length_replicate] at hlen
    rw [he, ← zeroedCount_eq_length idx dim hnd hlt, ← hlen]

/-- C2 witness at dim = 5, idx = [0, 2]: index value 0 is among the kept
indices and the complement is still exact. -/
theorem complement_idx_spec_witness :
    1 ≤ 5 ∧ [0, 2].Nodup ∧ (∀ i ∈ [0, 2], i < 5) ∧
    (complement_idx [0, 2] 5 = (List.range 5).filter (fun p => decide (p ∉ [0, 2])) ∧
     List.Sorted (· < ·) (complement_idx [0, 2] 5) ∧
     (∀ p, p ∈ complement_idx [0, 2] 5 ↔ p < 5 ∧ p ∉ [0, 2]) ∧
     (∀ p, ¬(p ∈ [0, 2] ∧ p ∈ complement_idx [0, 2] 5)) ∧
     [0, 2].length + (complement_idx [0, 2] 5).length = 5) :=
  ⟨by decide, by decide, by decide,
    complement_idx_spec [0, 2] 5 (by decide) (by decide) (by decide)⟩

/-- C9: the complement computation is an involution on index sets: applying
complement_idx twice over [0..n-1] returns exactly the original kept set as a
set (order may differ). -/
theorem complement_idx_involution (kept : List ℕ) (n : ℕ) (hnd : kept.Nodup)
    (hlt : ∀ i ∈ kept, i < n) :
    ∀ p, p ∈ complement_idx (complement_idx kept n) n ↔ p ∈ kept := by
  have h1 := complement_idx_eq kept n hnd hlt
  have hnd2 : (complement_idx kept n).Nodup := by
    rw [h1]; exact (List.nodup_range n).filter _
  have hlt2 : ∀ i ∈ complement_idx kept n, i < n := by
    intro i hi; rw [h1] at hi; exact List.mem_range.1 (List.mem_filter.1 hi).1
  have h2 := complement_idx_eq (complement_idx kept n) n hnd2 hlt2
  intro p
  rw [h2, h1]
  simp only [List.mem_filter, List.mem_range, decide_eq_true_eq]
  constructor
  · rintro ⟨hp, hnot⟩
    by_contra hk
    exact hnot ⟨hp, hk⟩
  · intro hp
    exact ⟨hlt p hp, fun hc => hc.2 hp⟩

/-- C9 witness at n = 6, kept = [4, 1]: the double complement has the same
members as the kept list. -/
theorem complement_idx_involution_witness :
    [4, 1].Nodup ∧ (∀ i ∈ [4, 1], i < 6) ∧
    (∀ p, p ∈ complement_idx (complement_idx [4, 1] 6) 6 ↔ p ∈ [4, 1]) :=
  ⟨by decide, by decide, complement_idx_involution [4, 1] 6 (by decide) (by decide)⟩

/-- C7: a stage with keep_rate == 1.0 skips reduction entirely: the sequence
passes through the reduction step unchanged, no token is removed, no fused
token is appended, and None is returned for both index outputs. -/
theorem evitReduce_keep_rate_one (x : List Token) (s : List ℚ) :
    evitReduce 1 x s = .ok ⟨x, x.length - 1, none, none⟩ := by
  unfold evitReduce
  rw [if_neg (lt_irrefl (1 : ℚ))]

unseal Rat.mul Rat.sub Rat.add in
/-- C10 (code bug): with keep_rate = 99/100 and N = 3, left_tokens =
ceil(0.99 * 2) = 2 = N - 1, so the inner reduction branch is skipped, but
Block.forward then reads the never-assigned local variable index at line 232
and the call fails with UnboundLocalError instead of passing the sequence
through and returning None for the indices. -/
theorem evitReduce_left_eq_all_crash :
    evitReduce (mkRat 99 100) [[1], [2], [3]] [mkRat 1 2, mkRat 1 3] =
      .error "UnboundLocalError: index" := by decide

/-- C1: at a reducing stage the selector keeps exactly
left = ceil(keep_rate * (N-1)) non-class token indices, sorted by strictly
descending relevance score with ties kept in ascending original index order
(stable, largest-sorted), every kept index dominates every discarded index in
that order, and the discarded indices are the ascending complement of the kept
set inside [0..N-2]. -/
theorem evitReduce_selector (k : ℚ) (x : List Token) (s : List ℚ)
    (hk0 : 0 < k) (hk : k < 1) (hN : 2 ≤ x.length)
    (hs : s.length = x.length - 1)
    (hne : leftTokens k x.length ≠ (x.length : ℤ) - 1) :
    ∃ r, evitReduce k x s = .ok r ∧
      r.idx = some ((topkIdx s (leftTokens k x.length).toNat).map Int.ofNat ++ [-1]) ∧
      (topkIdx s (leftTokens k x.length).toNat).length = (leftTokens k x.length).toNat ∧
      List.Pairwise (fun i j => s.getD j 0 < s.getD i 0 ∨ (s.getD i 0 = s.getD j 0 ∧ i < j))
        (topkIdx s (leftTokens k x.length).toNat) ∧
      (∀ i ∈ topkIdx s (leftTokens k x.length).toNat, ∀ j, j < x.length - 1 →
        j ∉ topkIdx s (leftTokens k x.length).toNat →
        s.getD j 0 < s.getD i 0 ∨ (s.getD i 0 = s.getD j 0 ∧ i < j)) ∧
      r.compl = some ((List.range (x.length - 1)).filter
        (fun p => decide (p ∉ topkIdx s (leftTokens k x.length).toNat))) := by
  obtain ⟨h1, h2⟩ := leftTokens_bounds k x.length hk0 hk.le hN
  have hcast : (s.length : ℤ) = (x.length : ℤ) - 1 := by
    rw [hs]
    have : 1 ≤ x.length := by omega
    push_cast [Nat.cast_sub this]
    ring
  have hlen : leftTokens k x.length ≤ (s.length : ℤ) := by rw [hcast]; exact h2
  have hrun := evitReduce_run k x s hk hne h1 hlen
  refine ⟨_, hrun, rfl, ?_, topkIdx_strict s _, ?_, ?_⟩
  · exact topkIdx_length s _ (Int.toNat_le.2 hlen)
  · intro i hi j hj hj2
    exact topkIdx_top s _ i hi j (by rw [hs]; exact hj) hj2
  · have hcompl := complement_idx_eq (topkIdx s (leftTokens k x.length).toNat) (x.length - 1)
      (topkIdx_nodup s _) (fun i hi => by
        have := topkIdx_mem_lt s _ i hi
        rw [hs] at this
        exact this)
    rw [hcompl]

unseal Rat.mul Rat.sub Rat.add in
/-- C1 witness: keep_rate = 1/2, N = 5, scores [3, 1, 2, 2] (a tie between
indices 2 and 3 exercises the stable tie-break). -/
theorem evitReduce_selector_witness :
    (0 : ℚ) < mkRat 1 2 ∧ mkRat 1 2 < 1 ∧ 2 ≤ [[0], [0], [0], [0], [0]].length ∧
    [(3 : ℚ), 1, 2, 2].length = [[(0 : ℚ)], [0], [0], [0], [0]].length - 1 ∧
    leftTokens (mkRat 1 2) [[(0 : ℚ)], [0], [0], [0], [0]].length ≠
      ([[(0 : ℚ)], [0], [0], [0], [0]].length : ℤ) - 1 ∧
    (∃ r, evitReduce (mkRat 1 2) [[0], [0], [0], [0], [0]] [3, 1, 2, 2] = .ok r ∧
      r.idx = some ((topkIdx [3, 1, 2, 2]
          (leftTokens (mkRat 1 2) [[(0 : ℚ)], [0], [0], [0], [0]].length).toNat).map
            Int.ofNat ++ [-1]) ∧
      (topkIdx [3, 1, 2, 2]
          (leftTokens (mkRat 1 2) [[(0 : ℚ)], [0], [0], [0], [0]].length).toNat).length =
        (leftTokens (mkRat 1 2) [[(0 : ℚ)], [0], [0], [0], [0]].length).toNat ∧
      List.Pairwise (fun i j => [(3 : ℚ), 1, 2, 2].getD j 0 < [(3 : ℚ), 1, 2, 2].getD i 0
          ∨ ([(3 : ℚ), 1, 2, 2].getD i 0 = [(3 : ℚ), 1, 2, 2].getD j 0 ∧ i < j))
        (topkIdx [3, 1, 2, 2]
          (leftTokens (mkRat 1 2) [[(0 : ℚ)], [0], [0], [0], [0]].length).toNat) ∧
      (∀ i ∈ topkIdx [3, 1, 2, 2]
          (leftTokens (mkRat 1 2) [[(0 : ℚ)], [0], [0], [0], [0]].length).toNat,
        ∀ j, j < [[(0 : ℚ)], [0], [0], [0], [0]].length - 1 →
        j ∉ topkIdx [3, 1, 2, 2]
          (leftTokens (mkRat 1 2) [[(0 : ℚ)], [0], [0], [0], [0]].length).toNat →
        [(3 : ℚ), 1, 2, 2].getD j 0 < [(3 : ℚ), 1, 2, 2].getD i 0
          ∨ ([(3 : ℚ), 1, 2, 2].getD i 0 = [(3 : ℚ), 1, 2, 2].getD j 0 ∧ i < j)) ∧
      r.compl = some ((List.range ([[(0 : ℚ)], [0], [0], [0], [0]].length - 1)).filter
        (fun p => decide (p ∉ topkIdx [3, 1, 2, 2]
          (leftTokens (mkRat 1 2) [[(0 : ℚ)], [0], [0], [0], [0]].length).toNat)))) :=
  ⟨by decide, by decide, by decide, by decide, by decide,
    evitReduce_selector (mkRat 1 2) [[0], [0], [0], [0], [0]] [3, 1, 2, 2]
      (by decide) (by decide) (by decide) (by decide) (by decide)⟩

lemma getD_drop_one (x : List Token) (i : ℕ) :
    (x.drop 1).getD i [] = x.getD (i + 1) [] := by
  simp [List.getD_eq_getElem?_getD, List.getElem?_drop, Nat.add_comm]

lemma fusedToken_eq (x : List Token) (s : List ℚ) (cIdx : List ℕ) :
    fusedToken x s cIdx = (List.range (x.headD []).length).map
      (fun c => (cIdx.map (fun i => (x.getD (i + 1) []).getD c 0 * s.getD i 0)).sum) := by
  unfold fusedToken
  simp only [List.zip_map', List.map_map]
  apply List.map_congr_left
  intro c _
  congr 1
  apply List.map_congr_left
  intro i _
  simp [Function.comp, getD_drop_one]

/-- Friendlier-hypothesis version of the reducing-branch normal form: with
0 < keep_rate < 1, N >= 2, scores of length N-1 and left_tokens different from
N-1, the reduction succeeds with the explicit reassembled output. -/
lemma evitReduce_ok (k : ℚ) (x : List Token) (s : List ℚ)
    (hk0 : 0 < k) (hk : k < 1) (hN : 2 ≤ x.length)
    (hs : s.length = x.length - 1)
    (hne : leftTokens k x.length ≠ (x.length : ℤ) - 1) :
    evitReduce k x s =
      .ok ⟨reducedSeq x s (topkIdx s (leftTokens k x.length).toNat)
              (complement_idx (topkIdx s (leftTokens k x.length).toNat) (x.length - 1)),
           (reducedSeq x s (topkIdx s (leftTokens k x.length).toNat)
              (complement_idx (topkIdx s (leftTokens k x.length).toNat) (x.length - 1))).length - 1,
           some ((topkIdx s (leftTokens k x.length).toNat).map Int.ofNat ++ [-1]),
           some (complement_idx (topkIdx s (leftTokens k x.length).toNat) (x.length - 1))⟩ := by
  obtain ⟨h1, h2⟩ := leftTokens_bounds k x.length hk0 hk.le hN
  have hcast : (s.length : ℤ) = (x.length : ℤ) - 1 := by
    rw [hs]
    have h3 : 1 ≤ x.length := by omega
    push_cast [Nat.cast_sub h3]
    ring
  exact evitReduce_run k x s hk hne h1 (by rw [hcast]; exact h2)

/-- C3: at a reducing stage the fused token appended at the end of the output
sequence equals the weighted sum over the discarded tokens of
token_i * score_i, the score being the relevance score gathered at the
discarded index, with no renormalization of the weights. -/
theorem evitReduce_fused (k : ℚ) (x : List Token) (s : List ℚ)
    (hk0 : 0 < k) (hk : k < 1) (hN : 2 ≤ x.length)
    (hs : s.length = x.length - 1)
    (hne : leftTokens k x.length ≠ (x.length : ℤ) - 1) :
    ∃ r d, evitReduce k x s = .ok r ∧ r.compl = some d ∧
      r.x.getLast? = some ((List.range (x.headD []).length).map
        (fun c => (d.map (fun i => (x.getD (i + 1) []).getD c 0 * s.getD i 0)).sum)) := by
  refine ⟨_, _, evitReduce_ok k x s hk0 hk hN hs hne, rfl, ?_⟩
  rw [reducedSeq, List.getLast?_concat, fusedToken_eq]

unseal Rat.mul Rat.sub Rat.add in
/-- C3 witness: six tokens, scores [1/2, 1/10, 1/20, 2/5, 1/50], keep_rate 2/5;
the discarded indices are [1, 2, 4] with scores [0.1, 0.05, 0.02] and the fused
token is exactly 0.1*[2] + 0.05*[4] + 0.02*[8] = [14/25], not renormalized. -/
theorem evitReduce_fused_witness :
    (0 : ℚ) < mkRat 2 5 ∧ mkRat 2 5 < 1 ∧
    2 ≤ [[0], [0], [2], [4], [0], [8]].length ∧
    [mkRat 1 2, mkRat 1 10, mkRat 1 20, mkRat 2 5, mkRat 1 50].length =
      [[(0 : ℚ)], [0], [2], [4], [0], [8]].length - 1 ∧
    leftTokens (mkRat 2 5) [[(0 : ℚ)], [0], [2], [4], [0], [8]].length ≠
      ([[(0 : ℚ)], [0], [2], [4], [0], [8]].length : ℤ) - 1 ∧
    (∃ r d, evitReduce (mkRat 2 5) [[0], [0], [2], [4], [0], [8]]
        [mkRat 1 2, mkRat 1 10, mkRat 1 20, mkRat 2 5, mkRat 1 50] = .ok r ∧
      r.compl = some d ∧
      r.x.getLast? = some ((List.range ([[(0 : ℚ)], [0], [2], [4], [0], [8]].headD []).length).map
        (fun c => (d.map (fun i =>
          ([[(0 : ℚ)], [0], [2], [4], [0], [8]].getD (i + 1) []).getD c 0 *
            [mkRat 1 2, mkRat 1 10, mkRat 1 20, mkRat 2 5, mkRat 1 50].getD i 0)).sum))) :=
  ⟨by decide, by decide, by decide, by decide, by decide,
    evitReduce_fused (mkRat 2 5) [[0], [0], [2], [4], [0], [8]]
      [mkRat 1 2, mkRat 1 10, mkRat 1 20, mkRat 2 5, mkRat 1 50]
      (by decide) (by decide) (by decide) (by decide) (by decide)⟩

unseal Rat.mul Rat.sub Rat.add in
/-- C4 counterexample: the claim fails for num_prefix = 2.  Sequence
[[10], [20], [30], [40]] where positions 0 and 1 are configured prefix tokens
(class token plus one register), keep_rate 2/3, scores [1/100, 1/2, 2/5]: the
reduction treats position 1 as an ordinary token, discards it (discard set
[0] in the shifted range), and returns a sequence of length 4, not
num_prefix + left + 1 = 5, whose position 1 no longer holds the register token
[20]. -/
theorem evitReduce_two_prefix_cex :
    evitReduce (mkRat 2 3) [[10], [20], [30], [40]] [mkRat 1 100, mkRat 1 2, mkRat 2 5] =
      .ok ⟨[[10], [30], [40], [mkRat 1 5]], 3, some [1, 2, -1], some [0]⟩ ∧
    ¬ ([[(10 : ℚ)], [30], [40], [mkRat 1 5]].length = 2 + 2 + 1) ∧
    ¬ ([[(10 : ℚ)], [30], [40], [mkRat 1 5]].getD 1 [] = [20]) := by decide

/-- C4 (amended): Block.forward preserves exactly one prefix token, whatever
num_prefix is configured: at a reducing stage the rebuilt sequence is the first
token unchanged, then the kept tokens in descending-score order (not restored
to positional order), then the fused token, with new length N' = 1 + left + 1;
register tokens beyond position 0 are part of the reducible pool. -/
theorem evitReduce_reassembly (k : ℚ) (x : List Token) (s : List ℚ)
    (hk0 : 0 < k) (hk : k < 1) (hN : 2 ≤ x.length)
    (hs : s.length = x.length - 1)
    (hne : leftTokens k x.length ≠ (x.length : ℤ) - 1) :
    ∃ r, evitReduce k x s = .ok r ∧
      r.x = x.take 1
        ++ (topkIdx s (leftTokens k x.length).toNat).map (fun i => x.getD (i + 1) [])
        ++ [fusedToken x s
              (complement_idx (topkIdx s (leftTokens k x.length).toNat) (x.length - 1))] ∧
      r.x.length = 1 + (leftTokens k x.length).toNat + 1 ∧
      r.x.headD [] = x.headD [] := by
  obtain ⟨h1, h2⟩ := leftTokens_bounds k x.length hk0 hk.le hN
  have hlen : (leftTokens k x.length).toNat ≤ s.length := by
    rw [Int.toNat_le, hs]
    have h3 : 1 ≤ x.length := by omega
    push_cast [Nat.cast_sub h3]
    omega
  have hmap : (topkIdx s (leftTokens k x.length).toNat).map (fun i => (x.drop 1).getD i [])
      = (topkIdx s (leftTokens k x.length).toNat).map (fun i => x.getD (i + 1) []) :=
    List.map_congr_left (fun i _ => getD_drop_one x i)
  refine ⟨_, evitReduce_ok k x s hk0 hk hN hs hne, ?_, ?_, ?_⟩ <;> dsimp only
  · rw [reducedSeq, hmap]
  · rw [reducedSeq]
    simp only [List.length_append, List.length_map, List.length_take, List.length_cons,
      List.length_nil]
    rw [topkIdx_length s _ hlen, Nat.min_eq_left (by omega : 1 ≤ x.length)]
  · rw [reducedSeq]
    rcases x with _ | ⟨a, t⟩
    · simp at hN
    · simp

unseal Rat.mul Rat.sub Rat.add in
/-- C4 amended witness at the counterexample input: one prefix token is
preserved and the rebuilt length is 1 + left + 1 = 4. -/
theorem evitReduce_reassembly_witness :
    (0 : ℚ) < mkRat 2 3 ∧ mkRat 2 3 < 1 ∧
    2 ≤ [[10], [20], [30], [40]].length ∧
    [mkRat 1 100, mkRat 1 2, mkRat 2 5].length = [[(10 : ℚ)], [20], [30], [40]].length - 1 ∧
    leftTokens (mkRat 2 3) [[(10 : ℚ)], [20], [30], [40]].length ≠
      ([[(10 : ℚ)], [20], [30], [40]].length : ℤ) - 1 ∧
    (∃ r, evitReduce (mkRat 2 3) [[10], [20], [30], [40]]
        [mkRat 1 100, mkRat 1 2, mkRat 2 5] = .ok r ∧
      r.x = [[(10 : ℚ)], [20], [30], [40]].take 1
        ++ (topkIdx [mkRat 1 100, mkRat 1 2, mkRat 2 5]
            (leftTokens (mkRat 2 3) [[(10 : ℚ)], [20], [30], [40]].length).toNat).map
              (fun i => [[(10 : ℚ)], [20], [30], [40]].getD (i + 1) [])
        ++ [fusedToken [[10], [20], [30], [40]] [mkRat 1 100, mkRat 1 2, mkRat 2 5]
              (complement_idx (topkIdx [mkRat 1 100, mkRat 1 2, mkRat 2 5]
                  (leftTokens (mkRat 2 3) [[(10 : ℚ)], [20], [30], [40]].length).toNat)
                ([[(10 : ℚ)], [20], [30], [40]].length - 1))] ∧
      r.x.length = 1 + (leftTokens (mkRat 2 3) [[(10 : ℚ)], [20], [30], [40]].length).toNat + 1 ∧
      r.x.headD [] = [[(10 : ℚ)], [20], [30], [40]].headD []) :=
  ⟨by decide, by decide, by decide, by decide, by decide,
    evitReduce_reassembly (mkRat 2 3) [[10], [20], [30], [40]]
      [mkRat 1 100, mkRat 1 2, mkRat 2 5]
      (by decide) (by decide) (by decide) (by decide) (by decide)⟩

/-- Static configuration produced by EViT.__init__ (evit.py lines 326-342 and
408-421): the per-stage keep-rate schedule token_ratio_full, the recovery
layers, and the cache flags. -/
structure EViTConfig where
  tokenRatioFull : List ℚ
  recoveryLayers : List ℕ
  clc : Bool
  clcIncludeGap : Bool
  numClr : ℕ
deriving DecidableEq

/-- token_ratio_full construction of evit.py lines 337-339: start from
[1] * depth and assign token_ratio[idx] at position reduction_loc[idx], in
order; an out-of-range location is an IndexError (a later duplicate location
overwrites an earlier assignment, exactly as in the source). -/
def buildRatioFull (depth : ℕ) (pairs : List (ℕ × ℚ)) : Except String (List ℚ) :=
  pairs.foldl (fun acc p => acc.bind (fun full =>
    if p.1 < depth then .ok (full.set p.1 p.2) else .error "IndexError"))
    (.ok (List.replicate depth 1))

/-- Broadcast of a single scalar keep_rate over every reduction location
(evit.py lines 330-332). -/
def broadcastRates (keepRate : List ℚ) (reductionLoc : List ℕ) : List ℚ :=
  if keepRate.length = 1
    then List.replicate reductionLoc.length (keepRate.headD 1) else keepRate

/-- Shallow embedding of the construction-time configuration handling of
EViT.__init__: broadcast of a length-1 keep_rate list over reduction_loc
(lines 330-332), the length-mismatch assert (line 334), the token_ratio_full
build (lines 337-339), the per-Block assert 0 < keep_rate <= 1 (Block.__init__
line 190, run for every stage while the blocks are built at lines 376-392), the
recovery-layer list (lines 412-416) and the cache-carrier assert (lines
417-421). -/
def evitInit (depth : ℕ) (keepRate : List ℚ) (reductionLoc : List ℕ)
    (clc clcIncludeGap recoverAtLast : Bool) (numClr : ℕ) : Except String EViTConfig :=
  if (broadcastRates keepRate reductionLoc).length ≠ reductionLoc.length then
    .error "AssertionError: Mismatch between the reduction location and token ratios"
  else
    (buildRatioFull depth (reductionLoc.zip (broadcastRates keepRate reductionLoc))).bind
      (fun full =>
      if full.all (fun r => decide (0 < r ∧ r ≤ 1)) then
        if clc && (numClr == 0) && !clcIncludeGap then
          .error "AssertionError: Either num_clr or clc_include_gap if clc"
        else
          .ok ⟨full, reductionLoc ++ (if recoverAtLast then [depth - 2] else []), clc,
            clcIncludeGap, numClr⟩
      else .error "AssertionError: keep_rate must > 0 and <= 1")

/-- Sequence length returned by one Block, derived from evitReduce (see
evitReduce_length): reduction changes N to left + 2 exactly when keep_rate < 1
and left differs from N - 1; every other stage leaves N unchanged (the
left = N - 1 branch errors at runtime, so the linking lemma only covers
successful runs). -/
def seqLenStep (k : ℚ) (N : ℕ) : ℕ :=
  if k < 1 then
    (if leftTokens k N = (N : ℤ) - 1 then N else (leftTokens k N).toNat + 2)
  else N

/-- On every successful run of the reduction step, the returned sequence length
is seqLenStep of the input length. -/
lemma evitReduce_length (k : ℚ) (x : List Token) (s : List ℚ) (r : BlockOut)
    (hx : 1 ≤ x.length) (h : evitReduce k x s = .ok r) :
    r.x.length = seqLenStep k x.length := by
  by_cases h1 : k < 1
  · by_cases h2 : leftTokens k x.length = (x.length : ℤ) - 1
    · unfold evitReduce at h
      rw [if_pos h1, if_pos h2] at h
      exact Except.noConfusion h
    · by_cases h3 : leftTokens k x.length < 1
      · unfold evitReduce at h
        rw [if_pos h1, if_neg h2, if_pos h3] at h
        exact Except.noConfusion h
      · by_cases h4 : (s.length : ℤ) < leftTokens k x.length
        · unfold evitReduce at h
          rw [if_pos h1, if_neg h2, if_neg h3, if_pos h4] at h
          exact Except.noConfusion h
        · rw [evitReduce_run k x s h1 h2 (not_lt.1 h3) (not_lt.1 h4)] at h
          have hA := Except.ok.inj h
          subst hA
          dsimp only
          rw [seqLenStep, if_pos h1, if_neg h2]
          have hlen : (leftTokens k x.length).toNat ≤ s.length := Int.toNat_le.2 (not_lt.1 h4)
          rw [reducedSeq]
          simp only [List.length_append, List.length_map, List.length_take, List.length_cons,
            List.length_nil]
          rw [topkIdx_length s _ hlen, Nat.min_eq_left hx]
          omega
  · unfold evitReduce at h
    rw [if_neg h1] at h
    have hA := Except.ok.inj h
    subst hA
    rw [seqLenStep, if_neg h1]

unseal Rat.mul Rat.sub Rat.add in
/-- C5: for depth = 12, reduction_loc = [3, 6, 9], keep_rate = [0.9, 0.9, 0.9]
and one prefix token, construction yields the schedule with 0.9 at stages 3, 6
and 9 and 1.0 elsewhere, and the per-stage length trajectory from N = 197 is:
stages 0-2 leave 197; stage 3 keeps ceil(0.9*196) = 177 and gives
N = 1+177+1 = 179; stages 4-5 leave 179; stage 6 keeps ceil(0.9*178) = 161 and
gives 163; stages 7-8 leave 163; stage 9 keeps ceil(0.9*162) = 146 and gives
148; stages 10-11 leave 148. -/
theorem evit_length_trajectory :
    evitInit 12 [mkRat 9 10, mkRat 9 10, mkRat 9 10] [3, 6, 9] false false false 0 =
      .ok ⟨[1, 1, 1, mkRat 9 10, 1, 1, mkRat 9 10, 1, 1, mkRat 9 10, 1, 1], [3, 6, 9],
        false, false, 0⟩ ∧
    List.scanl (fun N k => seqLenStep k N) 197
        [1, 1, 1, mkRat 9 10, 1, 1, mkRat 9 10, 1, 1, mkRat 9 10, 1, 1] =
      [197, 197, 197, 197, 179, 179, 179, 163, 163, 163, 148, 148, 148] := by decide

/-- C8 counterexample: with duplicate reduction locations [0, 0] and rates
[5, 1/2], the rate 5 is assigned to stage 0 and then overwritten by 1/2 before
any Block validates it, so construction succeeds even though 5 is outside
(0, 1]. -/
theorem evitInit_shadowed_rate_cex :
    evitInit 2 [5, mkRat 1 2] [0, 0] false false false 0 =
      .ok ⟨[mkRat 1 2, 1], [0, 0], false, false, 0⟩ ∧
    ¬ ((5 : ℚ) ≤ 1) := by decide

/-- C8 (amended): construction-time validation holds in this form: (i) a
length mismatch between keep_rate and reduction_loc with no scalar broadcast
fails construction with the mismatch assert; (ii) enabling the cache with
neither carrier tokens (num_clr > 0) nor the global-average-pool carrier never
yields a configuration; (iii) on success every effective per-stage rate of
token_ratio_full lies in (0, 1].  A keep_rate entry shadowed by a duplicate
reduction location escapes the range check (see the counterexample), so the
validation covers effective rates only. -/
theorem evitInit_validation (depth : ℕ) (kr : List ℚ) (loc : List ℕ)
    (clc gap ratl : Bool) (nclr : ℕ) :
    (kr.length ≠ loc.length → kr.length ≠ 1 →
      evitInit depth kr loc clc gap ratl nclr =
        .error "AssertionError: Mismatch between the reduction location and token ratios") ∧
    (clc = true → nclr = 0 → gap = false →
      ∀ cfg, evitInit depth kr loc clc gap ratl nclr ≠ .ok cfg) ∧
    (∀ cfg, evitInit depth kr loc clc gap ratl nclr = .ok cfg →
      ∀ q ∈ cfg.tokenRatioFull, 0 < q ∧ q ≤ 1) := by
  refine ⟨?_, ?_, ?_⟩
  · intro hne h1
    unfold evitInit
    have hb : broadcastRates kr loc = kr := by rw [broadcastRates, if_neg h1]
    rw [hb, if_pos hne]
  · intro hclc hn hg cfg hok
    subst hclc; subst hn; subst hg
    unfold evitInit at hok
    split at hok
    · exact Except.noConfusion hok
    · rcases hbuild : buildRatioFull depth (loc.zip (broadcastRates kr loc)) with e | full
      · rw [hbuild] at hok
        simp only [Except.bind] at hok
        exact Except.noConfusion hok
      · rw [hbuild] at hok
        simp only [Except.bind] at hok
        split at hok
        · simp only [beq_self_eq_true, Bool.not_false, Bool.and_true, Bool.and_self,
            Bool.true_and, if_true] at hok
          exact Except.noConfusion hok
        · exact Except.noConfusion hok
  · intro cfg hok q hq
    unfold evitInit at hok
    split at hok
    · exact Except.noConfusion hok
    · rcases hbuild : buildRatioFull depth (loc.zip (broadcastRates kr loc)) with e | full
      · rw [hbuild] at hok
        simp only [Except.bind] at hok
        exact Except.noConfusion hok
      · rw [hbuild] at hok
        simp only [Except.bind] at hok
        split at hok
        · split at hok
          · exact Except.noConfusion hok
          · have hcfg : cfg.tokenRatioFull = full := by
              have h7 := Except.ok.inj hok
              rw [← h7]
            rw [hcfg] at hq
            rename_i hall _
            have h6 := List.all_eq_true.1 hall q hq
            simpa using h6
        · exact Except.noConfusion hok

/-- C8 witness: the mismatch case at keep_rate = [1/2, 1/3] with one reduction
location, the cache case with num_clr = 0 and no gap carrier, and the range
property on the successful configuration with keep_rate [1/2]. -/
theorem evitInit_validation_witness :
    evitInit 1 [mkRat 1 2, mkRat 1 3] [0] false false false 0 =
      .error "AssertionError: Mismatch between the reduction location and token ratios" ∧
    (∀ cfg, evitInit 1 [mkRat 1 2] [0] true false false 0 ≠ .ok cfg) ∧
    (∀ q ∈ EViTConfig.tokenRatioFull ⟨[mkRat 1 2], [0], false, false, 0⟩, 0 < q ∧ q ≤ 1) :=
  ⟨(evitInit_validation 1 [mkRat 1 2, mkRat 1 3] [0] false false false 0).1
      (by decide) (by decide),
   fun cfg => (evitInit_validation 1 [mkRat 1 2] [0] true false false 0).2.1 rfl rfl rfl cfg,
   (evitInit_validation 1 [mkRat 1 2] [0] false false false 0).2.2
      ⟨[mkRat 1 2], [0], false, false, 0⟩ (by decide)⟩

/-- Cache configuration flags read by EViT.forward (evit.py lines 408-421,
630-635). -/
structure CacheConfig where
  clc : Bool
  recoveryLayers : List ℕ
  clcIncludeGap : Bool
  clcPoolCls : Bool
  clcPoolClr : Bool
  hasClr : Bool
  numClr : ℕ
deriving DecidableEq

/-- Loop state of EViT.forward: the token sequence, the cross-layer cache
buffer (one entry per accumulating stage), and curr_num_pool. -/
structure CacheState where
  x : List Token
  cache : List (List Token)
  currNumPool : ℕ
deriving DecidableEq

/-- Mean over the token dimension (the einops reduce at evit.py line 665),
channel by channel. -/
def meanToken (toks : List Token) : Token :=
  (List.range (toks.headD []).length).map
    (fun c => (toks.map (fun t => t.getD c 0)).sum / toks.length)

/-- Carrier content appended to the cache at an accumulating stage (evit.py
lines 657-672): the optional global-average-pool token over x[:, :curr] or
x[:, 1:curr], then the optional clr carrier tokens x[:, -num_clr:];
torch.cat on an empty carrier list raises. -/
def carrierEntry (cfg : CacheConfig) (x : List Token) (currNumPool : ℕ) :
    Except String (List Token) :=
  let gapPart : List Token :=
    if cfg.clcIncludeGap then
      [meanToken (if cfg.clcPoolCls then x.take currNumPool
        else (x.drop 1).take (currNumPool - 1))]
    else []
  let clrPart : List Token :=
    if cfg.hasClr then
      (if cfg.numClr = 0 then x else x.drop (x.length - cfg.numClr))
    else []
  if (gapPart ++ clrPart).isEmpty then .error "RuntimeError: torch.cat empty"
  else .ok (gapPart ++ clrPart)

/-- One post-block cache step of EViT.forward (evit.py lines 648-672): first,
when the stage index is a recovery layer, record curr_num_pool = current
length, concatenate every buffered entry in accumulation order onto the end of
the sequence and clear the buffer (torch.cat on an empty buffer raises); then,
when the stage index is strictly before the last recovery layer, append one
carrier entry to the buffer (reading recovery_layers[-1] of an empty list
raises). -/
def cacheStep (cfg : CacheConfig) (i : ℕ) (st : CacheState) : Except String CacheState :=
  Except.bind
    (if cfg.clc ∧ i ∈ cfg.recoveryLayers then
      (if st.cache.isEmpty then Except.error "RuntimeError: torch.cat empty cache"
       else Except.ok ⟨st.x ++ st.cache.flatten, [], st.x.length⟩)
     else Except.ok st)
    (fun st1 =>
    if cfg.clc then
      match cfg.recoveryLayers.getLast? with
      | none => .error "IndexError: recovery_layers"
      | some last =>
        if i < last then
          (carrierEntry cfg st1.x st1.currNumPool).map
            (fun e => ⟨st1.x, st1.cache ++ [e], st1.currNumPool⟩)
        else .ok st1
    else .ok st1)

/-- Initial loop state of EViT.forward (evit.py lines 630-635). -/
def initCacheState (cfg : CacheConfig) (x0 : List Token) : CacheState :=
  ⟨x0, [],
    if cfg.hasClr ∧ ¬(cfg.clcPoolClr = true) then x0.length - cfg.numClr else x0.length⟩

/-- The stage loop of EViT.forward restricted to the cache bookkeeping: the
per-stage block transform is abstracted as blk (its internals are settled by
the Block theorems), the cache step runs after each block. -/
def runCache (cfg : CacheConfig) (blk : ℕ → List Token → List Token)
    (x0 : List Token) (depth : ℕ) : Except String CacheState :=
  (List.range depth).foldl
    (fun acc i => acc.bind
      (fun st => cacheStep cfg i ⟨blk i st.x, st.cache, st.currNumPool⟩))
    (.ok (initCacheState cfg x0))

unseal Rat.mul Rat.add Rat.sub Rat.inv in
/-- C6 counterexample: caching enabled, recovery layers [1, 3], identity
blocks, one-token input.  At the end of stage 1 -- a recovery stage that is
not the last recovery layer -- the buffer holds one freshly accumulated entry,
so it is not empty immediately after a stage whose index is in
recovery_layers. -/
theorem cache_nonempty_after_recovery_cex :
    runCache ⟨true, [1, 3], true, true, false, false, 0⟩ (fun _ x => x) [[1]] 2 =
      .ok ⟨[[1], [1]], [[[1]]], 1⟩ ∧
    (1 ∈ [1, 3]) ∧ ¬ (([[[(1 : ℚ)]]] : List (List Token)).length = 0) := by decide

/-- C6 (amended): with caching enabled, a recovery-stage cache step
concatenates all buffered entries in accumulation order onto the end of the
sequence and clears the buffer before accumulation; the buffer at the end of
the step then holds exactly one entry when the stage is strictly before the
final recovery layer (the entry accumulated at that same stage) and is empty
otherwise; at a non-recovery stage the sequence is untouched and the buffer
grows by exactly one entry when the stage is strictly before the final
recovery layer (never shrinking). -/
theorem cacheStep_invariants (cfg : CacheConfig) (i last : ℕ) (st st2 : CacheState)
    (hclc : cfg.clc = true)
    (hlast : cfg.recoveryLayers.getLast? = some last)
    (hrun : cacheStep cfg i st = .ok st2) :
    (i ∈ cfg.recoveryLayers →
      st.cache ≠ [] ∧
      st2.x = st.x ++ st.cache.flatten ∧
      st2.cache.length = if i < last then 1 else 0) ∧
    (i ∉ cfg.recoveryLayers →
      st2.x = st.x ∧
      ∃ es, st2.cache = st.cache ++ es ∧
        es.length = (if i < last then 1 else 0) ∧
        st.cache.length ≤ st2.cache.length) := by
  unfold cacheStep at hrun
  rw [hclc] at hrun
  by_cases hrec : i ∈ cfg.recoveryLayers
  · rw [if_pos ⟨rfl, hrec⟩] at hrun
    by_cases hemp : st.cache.isEmpty = true
    · rw [if_pos hemp] at hrun
      simp only [Except.bind] at hrun
      exact Except.noConfusion hrun
    · rw [if_neg hemp] at hrun
      simp only [Except.bind] at hrun
      rw [if_pos trivial, hlast] at hrun
      dsimp only at hrun
      have hne : st.cache ≠ [] := by
        intro hnil
        rw [hnil] at hemp
        exact hemp rfl
      by_cases hil : i < last
      · rw [if_pos hil] at hrun
        rcases hce : carrierEntry cfg (st.x ++ st.cache.flatten) st.x.length with e | en
        · rw [hce] at hrun
          simp only [Except.map] at hrun
          exact Except.noConfusion hrun
        · rw [hce] at hrun
          simp only [Except.map] at hrun
          have hA := Except.ok.inj hrun
          subst hA
          refine ⟨fun _ => ⟨hne, rfl, ?_⟩, fun hc => absurd hrec hc⟩
          rw [if_pos hil]
          rfl
      · rw [if_neg hil] at hrun
        have hA := Except.ok.inj hrun
        subst hA
        refine ⟨fun _ => ⟨hne, rfl, ?_⟩, fun hc => absurd hrec hc⟩
        rw [if_neg hil]
        rfl
  · rw [if_neg (fun hc => hrec hc.2)] at hrun
    simp only [Except.bind] at hrun
    rw [if_pos trivial, hlast] at hrun
    dsimp only at hrun
    by_cases hil : i < last
    · rw [if_pos hil] at hrun
      rcases hce : carrierEntry cfg st.x st.currNumPool with e | en
      · rw [hce] at hrun
        simp only [Except.map] at hrun
        exact Except.noConfusion hrun
      · rw [hce] at hrun
        simp only [Except.map] at hrun
        have hA := Except.ok.inj hrun
        subst hA
        refine ⟨fun hc => absurd hc hrec, fun _ => ⟨rfl, [en], rfl, ?_, ?_⟩⟩
        · rw [if_pos hil]
          rfl
        · simp
    · rw [if_neg hil] at hrun
      have hA := Except.ok.inj hrun
      subst hA
      refine ⟨fun hc => absurd hc hrec, fun _ => ⟨rfl, [], by simp, ?_, le_refl _⟩⟩
      rw [if_neg hil]
      rfl

unseal Rat.mul Rat.add Rat.sub Rat.inv in
/-- C6 amended witness: recovery stage i = 1 with recovery layers [1, 3],
buffer holding one entry [[2]]: the step appends the buffered entry to the
sequence, clears the buffer, and accumulates one fresh entry. -/
theorem cacheStep_invariants_witness :
    (CacheConfig.clc ⟨true, [1, 3], true, true, false, false, 0⟩ = true) ∧
    ([1, 3].getLast? = some 3) ∧
    (cacheStep ⟨true, [1, 3], true, true, false, false, 0⟩ 1 ⟨[[1]], [[[2]]], 1⟩ =
      .ok ⟨[[1], [2]], [[[1]]], 1⟩) ∧
    ((1 ∈ ([1, 3] : List ℕ) →
      ([[[(2 : ℚ)]]] : List (List Token)) ≠ [] ∧
      CacheState.x ⟨[[1], [2]], [[[1]]], 1⟩ = [[1]] ++ ([[[(2 : ℚ)]]] : List (List Token)).flatten ∧
      (CacheState.cache ⟨[[1], [2]], [[[1]]], 1⟩).length = if 1 < 3 then 1 else 0) ∧
    (1 ∉ ([1, 3] : List ℕ) →
      CacheState.x ⟨[[1], [2]], [[[1]]], 1⟩ = [[1]] ∧
      ∃ es, CacheState.cache ⟨[[1], [2]], [[[1]]], 1⟩ = [[[2]]] ++ es ∧
        es.length = (if 1 < 3 then 1 else 0) ∧
        ([[[(2 : ℚ)]]] : List (List Token)).length ≤
          (CacheState.cache ⟨[[1], [2]], [[[1]]], 1⟩).length)) :=
  ⟨by decide, by decide, by decide,
    cacheStep_invariants ⟨true, [1, 3], true, true, false, false, 0⟩ 1 3
      ⟨[[1]], [[[2]]], 1⟩ ⟨[[1], [2]], [[[1]]], 1⟩ (by decide) (by decide) (by decide)⟩

end EViT

